import Mathlib

/-!
Verification of the two data structures of the TVC-NanoSD firmware
(src/software/Arduino/TVC_NanoCartSD): the byte ring buffer
`CircularQueue` and the path-segment stack `PathStack`.

The C++ sources are embedded shallowly: `byte` values are natural
numbers, and every assignment whose C++ int expression can exceed 255
before being stored into a `byte` carries an explicit `% 256`; C++
comparisons that promote `byte` operands to `int` are stated over `Int`.
The busy-wait loops of `push`, `pop` and `pushBlock` are modelled as
preconditions: each operation is given in the state its wait has
already completed in, and a run of operations that would block is
rejected (`Option.none`).
-/

namespace NanoSD

/-- State of `CircularQueue` (CircularQueue.h): the malloc'ed `byte`
array `buffer`, the `byte` field `maxSize`, and the two volatile `byte`
cursors `startPos` and `endPos`. -/
structure CircularQueue where
  buffer : List Nat
  maxSize : Nat
  startPos : Nat
  endPos : Nat
deriving DecidableEq

namespace CircularQueue

/-- `CircularQueue::CircularQueue(int n)`: the assignment
`maxSize = n+1` stores into a `byte` field, hence the `% 256`; the
malloc'ed storage of `maxSize` cells (contents indeterminate) is
modelled as zeros. -/
def fresh (n : Nat) : CircularQueue :=
  ⟨List.replicate ((n + 1) % 256) 0, (n + 1) % 256, 0, 0⟩

/-- `CircularQueue::getIncrementedPos`: `byte incPos = pos+1` truncates
at 256, then a value equal to `maxSize` wraps to 0. -/
def getIncrementedPos (q : CircularQueue) (pos : Nat) : Nat :=
  if (pos + 1) % 256 = q.maxSize then 0 else (pos + 1) % 256

/-- `CircularQueue::push` after its busy-wait
(`while(nextEndPos == startPos)`): store the byte at `endPos` and
advance the write cursor. -/
def push (q : CircularQueue) (data : Nat) : CircularQueue :=
  { q with buffer := q.buffer.set q.endPos data,
           endPos := q.getIncrementedPos q.endPos }

/-- `CircularQueue::pop` after its busy-wait
(`while(startPos == endPos)`): the byte at `startPos`, and the state
with the read cursor advanced. -/
def pop (q : CircularQueue) : Nat × CircularQueue :=
  (q.buffer.getD q.startPos 0,
   { q with startPos := q.getIncrementedPos q.startPos })

/-- `CircularQueue::isEmpty`. -/
def isEmpty (q : CircularQueue) : Bool :=
  q.startPos == q.endPos

/-- `CircularQueue::isFull`: the `byte` operands of `s == e+1` and
`e == maxSize-1` are promoted to `int`, so the comparisons are over
`Int` and in particular `e+1` does not wrap at 256 and `maxSize-1` is
`-1` when `maxSize` is 0. -/
def isFull (q : CircularQueue) : Bool :=
  ((q.startPos : Int) == (q.endPos : Int) + 1) ||
    (((q.endPos : Int) == (q.maxSize : Int) - 1) && ((q.startPos : Int) == 0))

/-- `CircularQueue::getSize`: the else-branch computes
`((int)e + maxSize) - s` as an `int` and returns it as a `byte`,
hence the `% 256` over `Int`. -/
def getSize (q : CircularQueue) : Nat :=
  if q.endPos ≥ q.startPos then q.endPos - q.startPos
  else (((q.endPos : Int) + (q.maxSize : Int) - (q.startPos : Int)) % 256).toNat

/-- One `memcpy(&buffer[pos], data, data.length)`: write the bytes of
`data` into the storage one cell at a time starting at index `pos`
(an out-of-range cell, impossible in a well-formed call, is dropped
just as `List.set` drops it). -/
def memcpyAt : List Nat → Nat → List Nat → List Nat
  | buf, _, [] => buf
  | buf, p, d :: ds => memcpyAt (buf.set p d) (p + 1) ds

/-- `CircularQueue::pushBlock` after its busy-wait
(`while(getSize()+dataLength >= maxSize)`); the list `data` stands for
the `dataLength` bytes behind the pointer argument, so `dataLength` is
`data.length`.  The wrap case splits the copy in two; the non-wrap
case stores `endPos + dataLength` into the `byte` cursor, hence the
`% 256`. -/
def pushBlock (q : CircularQueue) (data : List Nat) : CircularQueue :=
  let dataLength := data.length
  let copyLength := min dataLength (q.maxSize - q.endPos)
  let buf1 := memcpyAt q.buffer q.endPos (data.take copyLength)
  if copyLength ≠ dataLength then
    { q with buffer := memcpyAt buf1 0 (data.drop copyLength),
             endPos := dataLength - copyLength }
  else
    { q with buffer := buf1,
             endPos := if dataLength + q.endPos = q.maxSize then 0
                       else (q.endPos + dataLength) % 256 }

/-- `CircularQueue::clear`. -/
def clear (q : CircularQueue) : CircularQueue :=
  { q with startPos := 0, endPos := 0 }

/-- Well-formedness: the `byte` fields are in their C++ range, both
cursors are inside the storage, and the storage has `maxSize` cells —
exactly what the constructor establishes for parameters up to 254. -/
def WF (q : CircularQueue) : Prop :=
  q.maxSize ≤ 255 ∧ q.startPos < q.maxSize ∧ q.endPos < q.maxSize ∧
    q.buffer.length = q.maxSize

instance (q : CircularQueue) : Decidable q.WF := by
  unfold WF; infer_instance

/-- The outstanding unpopped bytes, oldest first: `getSize q` cells of
the storage starting at the read cursor and wrapping modulo `maxSize`. -/
def contents (q : CircularQueue) : List Nat :=
  (List.range q.getSize).map fun i => q.buffer.getD ((q.startPos + i) % q.maxSize) 0

/-- An external operation on the queue: `push(b)` or `pop()`. -/
inductive Op where
  | push (b : Nat)
  | pop
deriving DecidableEq

/-- Run a list of operations.  Each busy-wait is modelled as a
precondition: `push` requires its wait condition
`nextEndPos == startPos` to be false and `pop` requires
`startPos == endPos` to be false; a sequence that would block yields
`none`.  Returns the final state and the bytes returned by the pops,
in order. -/
def runOps (q : CircularQueue) : List Op → Option (CircularQueue × List Nat)
  | [] => some (q, [])
  | Op.push b :: ops =>
    if q.getIncrementedPos q.endPos = q.startPos then none
    else runOps (q.push b) ops
  | Op.pop :: ops =>
    if q.startPos = q.endPos then none
    else
      match runOps (q.pop).2 ops with
      | some (q', outs) => some (q', (q.pop).1 :: outs)
      | none => none

/-- The bytes handed to `push` by a list of operations, in order. -/
def pushedBytes (ops : List Op) : List Nat :=
  ops.filterMap fun op => match op with | Op.push b => some b | Op.pop => none

/-- Pop `k` times in a row, collecting the returned bytes in order. -/
def popN (q : CircularQueue) : Nat → List Nat × CircularQueue
  | 0 => ([], q)
  | k + 1 =>
    let r := popN (q.pop).2 k
    ((q.pop).1 :: r.1, r.2)

/-- Push `k` zero bytes one after the other (drives the queue towards
full). -/
def pushN (q : CircularQueue) : Nat → CircularQueue
  | 0 => q
  | k + 1 => (pushN q k).push 0

end CircularQueue

/-- `MAX_PATHSTACK_SIZE` from PathStack.h. -/
def MAX_PATHSTACK_SIZE : Nat := 8

/-- State of `PathStack`: the `byte stack[8][2]` array of
`(startPos, endPos)` pairs and the depth counter `pos`. -/
structure PathStack where
  stack : List (Nat × Nat)
  pos : Nat
deriving DecidableEq

namespace PathStack

/-- `PathStack::PathStack()`: depth 0; the uninitialised array is
modelled as eight `(0, 0)` slots. -/
def create : PathStack :=
  ⟨List.replicate MAX_PATHSTACK_SIZE (0, 0), 0⟩

/-- `PathStack::push`. -/
def push (st : PathStack) (startPos endPos : Nat) : PathStack × Bool :=
  if st.pos < MAX_PATHSTACK_SIZE then
    (⟨st.stack.set st.pos (startPos, endPos), st.pos + 1⟩, true)
  else
    (st, false)

/-- `PathStack::dropTop`. -/
def dropTop (st : PathStack) : PathStack :=
  if st.pos > 0 then { st with pos := st.pos - 1 } else st

/-- Modelled from the spec: `String::substring(from, to)` of the
Arduino core is not part of this repository; the spec describes
`resolve` through `sourceString[start:end]`, so a substring is the
half-open character range `[left, right)`. -/
def substring (path : List Char) (left right : Nat) : List Char :=
  (path.drop left).take (right - left)

/-- `PathStack::getAbsolutePath`: the loop
`for(i=0; i<pos; i++) retVal += path.substring(stack[i][0], stack[i][1])`
as a fold, reading slot `i` of the array. -/
def getAbsolutePath (st : PathStack) (path : List Char) : List Char :=
  (List.range st.pos).foldl
    (fun retVal i =>
      retVal ++ substring path (st.stack.getD i (0, 0)).1 (st.stack.getD i (0, 0)).2)
    []

/-- Push a list of segments in order, collecting each push's boolean
result. -/
def pushAll (st : PathStack) : List (Nat × Nat) → PathStack × List Bool
  | [] => (st, [])
  | (a, b) :: rest =>
    let r := st.push a b
    let r2 := pushAll r.1 rest
    (r2.1, r.2 :: r2.2)

end PathStack

namespace CircularQueue

@[simp] theorem push_buffer (q : CircularQueue) (b : Nat) :
    (q.push b).buffer = q.buffer.set q.endPos b := rfl

@[simp] theorem push_maxSize (q : CircularQueue) (b : Nat) :
    (q.push b).maxSize = q.maxSize := rfl

@[simp] theorem push_startPos (q : CircularQueue) (b : Nat) :
    (q.push b).startPos = q.startPos := rfl

@[simp] theorem push_endPos (q : CircularQueue) (b : Nat) :
    (q.push b).endPos = q.getIncrementedPos q.endPos := rfl

@[simp] theorem pop_fst (q : CircularQueue) : (q.pop).1 = q.buffer.getD q.startPos 0 := rfl

@[simp] theorem pop_buffer (q : CircularQueue) : (q.pop).2.buffer = q.buffer := rfl

@[simp] theorem pop_maxSize (q : CircularQueue) : (q.pop).2.maxSize = q.maxSize := rfl

@[simp] theorem pop_startPos (q : CircularQueue) :
    (q.pop).2.startPos = q.getIncrementedPos q.startPos := rfl

@[simp] theorem pop_endPos (q : CircularQueue) : (q.pop).2.endPos = q.endPos := rfl

/-- Helper: `List.getD` after a `List.set` at a different index. -/
theorem getD_set_ne {α : Type} (l : List α) (i j : Nat) (a d : α) (hne : i ≠ j) :
    (l.set i a).getD j d = l.getD j d := by
  rcases Nat.lt_or_ge j l.length with hj | hj
  · rw [List.getD_eq_getElem _ _ (by simpa using hj), List.getD_eq_getElem _ _ hj,
      List.getElem_set_ne hne]
  · rw [List.getD_eq_default _ _ (by simpa using hj), List.getD_eq_default _ _ hj]

/-- Helper: `List.getD` after a `List.set` at the same, in-range index. -/
theorem getD_set_self {α : Type} (l : List α) (i : Nat) (a d : α) (hi : i < l.length) :
    (l.set i a).getD i d = a := by
  rw [List.getD_eq_getElem _ _ (by simpa using hi), List.getElem_set_self]

/-- Helper: cancellation for equal residues of `a + i` and `a + j`. -/
theorem add_mod_cancel_lt {m a i j : Nat} (hi : i < m) (hj : j < m)
    (hmod : (a + i) % m = (a + j) % m) : i = j := by
  have h2 := Nat.ModEq.add_left_cancel' a hmod
  rwa [Nat.ModEq, Nat.mod_eq_of_lt hi, Nat.mod_eq_of_lt hj] at h2

/-- Under the byte bounds, `getSize` is plain cursor distance with capacity
wraparound (no 256 truncation occurs). -/
theorem getSize_eq {q : CircularQueue} (hm : q.maxSize ≤ 255)
    (hs : q.startPos < q.maxSize) (he : q.endPos < q.maxSize) :
    q.getSize = if q.startPos ≤ q.endPos then q.endPos - q.startPos
                else q.endPos + q.maxSize - q.startPos := by
  unfold getSize
  rcases le_or_lt q.startPos q.endPos with hle | hlt
  · rw [if_pos hle, if_pos hle]
  · rw [if_neg (by omega), if_neg (by omega)]
    omega

/-- The occupancy is always below the storage size. -/
theorem getSize_lt {q : CircularQueue} (h : q.WF) : q.getSize < q.maxSize := by
  obtain ⟨h1, h2, h3, h4⟩ := h
  rw [getSize_eq h1 h2 h3]
  split <;> omega

/-- Under the byte bounds, `getIncrementedPos` is increment modulo
`maxSize`. -/
theorem getIncrementedPos_eq {q : CircularQueue} (hm : q.maxSize ≤ 255)
    {pos : Nat} (hp : pos < q.maxSize) :
    q.getIncrementedPos pos = (pos + 1) % q.maxSize := by
  unfold getIncrementedPos
  have h256 : (pos + 1) % 256 = pos + 1 := Nat.mod_eq_of_lt (by omega)
  rw [h256]
  rcases eq_or_ne (pos + 1) q.maxSize with he | hne
  · rw [if_pos he, he, Nat.mod_self]
  · rw [if_neg hne, Nat.mod_eq_of_lt (by omega)]

theorem getIncrementedPos_lt {q : CircularQueue} (hm : q.maxSize ≤ 255)
    {pos : Nat} (hp : pos < q.maxSize) :
    q.getIncrementedPos pos < q.maxSize := by
  rw [getIncrementedPos_eq hm hp]
  exact Nat.mod_lt _ (by omega)

/-- Advancing the read cursor by the occupancy lands on the write cursor. -/
theorem startPos_add_getSize {q : CircularQueue} (h : q.WF) :
    (q.startPos + q.getSize) % q.maxSize = q.endPos := by
  obtain ⟨h1, h2, h3, h4⟩ := h
  rw [getSize_eq h1 h2 h3]
  rcases le_or_lt q.startPos q.endPos with hle | hlt
  · rw [if_pos hle]
    have hx : q.startPos + (q.endPos - q.startPos) = q.endPos := by omega
    rw [hx, Nat.mod_eq_of_lt h3]
  · rw [if_neg (by omega)]
    have hx : q.startPos + (q.endPos + q.maxSize - q.startPos) =
        q.endPos + q.maxSize := by omega
    rw [hx, Nat.add_mod_right, Nat.mod_eq_of_lt h3]

theorem push_WF {q : CircularQueue} (h : q.WF) (b : Nat) : (q.push b).WF := by
  obtain ⟨h1, h2, h3, h4⟩ := h
  exact ⟨h1, h2, getIncrementedPos_lt h1 h3, by simpa using h4⟩

theorem pop_WF {q : CircularQueue} (h : q.WF) : (q.pop).2.WF := by
  obtain ⟨h1, h2, h3, h4⟩ := h
  exact ⟨h1, getIncrementedPos_lt h1 h2, h3, h4⟩

theorem clear_WF {q : CircularQueue} (h : q.WF) : q.clear.WF := by
  obtain ⟨h1, h2, h3, h4⟩ := h
  exact ⟨h1, by simp [clear]; omega, by simp [clear]; omega, h4⟩

@[simp] theorem fresh_startPos (n : Nat) : (fresh n).startPos = 0 := rfl

@[simp] theorem fresh_endPos (n : Nat) : (fresh n).endPos = 0 := rfl

theorem fresh_WF {n : Nat} (hn : n ≤ 254) : (fresh n).WF := by
  have hx : (n + 1) % 256 = n + 1 := Nat.mod_eq_of_lt (by omega)
  refine ⟨?_, ?_, ?_, ?_⟩ <;> simp [fresh, hx] <;> omega

theorem contents_fresh (n : Nat) : (fresh n).contents = [] := by
  simp [contents, getSize, fresh]

@[simp] theorem contents_length (q : CircularQueue) :
    q.contents.length = q.getSize := by
  simp [contents]

theorem contents_empty {q : CircularQueue} (h : q.WF) (he : q.isEmpty = true) :
    q.contents = [] := by
  rw [isEmpty, beq_iff_eq] at he
  obtain ⟨h1, h2, h3, h4⟩ := h
  have hz : q.getSize = 0 := by rw [getSize_eq h1 h2 h3]; split <;> omega
  simp [contents, hz]

/-- Occupancy grows by one under a push whose wait condition has
completed (the queue is not full). -/
theorem getSize_push {q : CircularQueue} (h : q.WF)
    (hnf : q.getIncrementedPos q.endPos ≠ q.startPos) (b : Nat) :
    (q.push b).getSize = q.getSize + 1 := by
  have hw := push_WF h b
  rw [getSize_eq hw.1 hw.2.1 hw.2.2.1]
  obtain ⟨h1, h2, h3, h4⟩ := h
  rw [getSize_eq h1 h2 h3]
  simp only [push_startPos, push_endPos, push_maxSize]
  rw [getIncrementedPos_eq h1 h3] at hnf ⊢
  rcases Nat.lt_or_ge (q.endPos + 1) q.maxSize with hlt | hge
  · rw [Nat.mod_eq_of_lt hlt] at hnf ⊢
    split_ifs <;> omega
  · have hEq : q.endPos + 1 = q.maxSize := by omega
    rw [hEq, Nat.mod_self] at hnf ⊢
    split_ifs <;> omega

/-- Occupancy shrinks by one under a pop whose wait condition has
completed (the queue is not empty). -/
theorem getSize_pop {q : CircularQueue} (h : q.WF)
    (hne : q.startPos ≠ q.endPos) :
    (q.pop).2.getSize = q.getSize - 1 := by
  have hw := pop_WF h
  rw [getSize_eq hw.1 hw.2.1 hw.2.2.1]
  obtain ⟨h1, h2, h3, h4⟩ := h
  rw [getSize_eq h1 h2 h3]
  simp only [pop_startPos, pop_endPos, pop_maxSize]
  rw [getIncrementedPos_eq h1 h2]
  rcases Nat.lt_or_ge (q.startPos + 1) q.maxSize with hlt | hge
  · rw [Nat.mod_eq_of_lt hlt]
    split_ifs <;> omega
  · have hEq : q.startPos + 1 = q.maxSize := by omega
    rw [hEq, Nat.mod_self]
    split_ifs <;> omega

/-- A push whose wait condition has completed appends its byte to the
abstract contents. -/
theorem contents_push {q : CircularQueue} (h : q.WF)
    (hnf : q.getIncrementedPos q.endPos ≠ q.startPos) (b : Nat) :
    (q.push b).contents = q.contents ++ [b] := by
  have hm : 0 < q.maxSize := Nat.lt_of_le_of_lt (Nat.zero_le _) h.2.1
  have hlen : q.buffer.length = q.maxSize := h.2.2.2
  have hsz := getSize_lt h
  have hse := startPos_add_getSize h
  unfold contents
  simp only [push_startPos, push_buffer, push_maxSize]
  rw [getSize_push h hnf, List.range_succ, List.map_append, List.map_cons,
    List.map_nil]
  congr 1
  · refine List.map_congr_left ?_
    intro i hi
    rw [List.mem_range] at hi
    have hne2 : (q.startPos + i) % q.maxSize ≠ q.endPos := by
      intro hcon
      have hin : i = q.getSize := by
        refine @add_mod_cancel_lt q.maxSize q.startPos i q.getSize
          (Nat.lt_trans hi hsz) hsz ?_
        rw [hcon, hse]
      omega
    exact getD_set_ne _ _ _ _ _ (fun hcon => hne2 hcon.symm)
  · rw [hse, getD_set_self _ _ _ _ (by rw [hlen]; exact h.2.2.1)]

/-- A pop whose wait condition has completed removes the head of the
abstract contents and returns it. -/
theorem contents_pop {q : CircularQueue} (h : q.WF)
    (hne : q.startPos ≠ q.endPos) :
    q.contents = (q.pop).1 :: (q.pop).2.contents := by
  have h1 := h.1
  have h2 := h.2.1
  have h3 := h.2.2.1
  have hn1 : 1 ≤ q.getSize := by
    rw [getSize_eq h1 h2 h3]; split_ifs <;> omega
  unfold contents
  simp only [pop_startPos, pop_buffer, pop_maxSize, pop_fst]
  rw [getSize_pop h hne]
  obtain ⟨n', hn'⟩ : ∃ n', q.getSize = n' + 1 := ⟨q.getSize - 1, by omega⟩
  rw [hn', Nat.add_sub_cancel, List.range_succ_eq_map, List.map_cons,
    List.map_map]
  congr 1
  · rw [Nat.add_zero, Nat.mod_eq_of_lt h2]
  · refine List.map_congr_left ?_
    intro i _
    simp only [Function.comp_apply]
    rw [getIncrementedPos_eq h1 h2, Nat.mod_add_mod]
    have hx : q.startPos + Nat.succ i = q.startPos + 1 + i := by omega
    rw [hx]

/-- Main invariant of a run: the initial contents followed by all pushed
bytes equal the popped bytes followed by the final contents. -/
theorem runOps_spec {ops : List Op} {q q' : CircularQueue} {outs : List Nat}
    (h : q.WF) (hrun : runOps q ops = some (q', outs)) :
    q'.WF ∧ q.contents ++ pushedBytes ops = outs ++ q'.contents := by
  induction ops generalizing q outs with
  | nil =>
    simp only [runOps, Option.some_inj, Prod.mk.injEq] at hrun
    obtain ⟨rfl, rfl⟩ := hrun
    simp [pushedBytes, h]
  | cons op ops ih =>
    cases op with
    | push b =>
      rw [runOps] at hrun
      split at hrun
      · exact absurd hrun (by simp)
      · rename_i hguard
        obtain ⟨hw, heq⟩ := ih (push_WF h b) hrun
        refine ⟨hw, ?_⟩
        calc q.contents ++ pushedBytes (Op.push b :: ops)
            = (q.contents ++ [b]) ++ pushedBytes ops := by
              simp [pushedBytes, List.filterMap_cons]
          _ = (q.push b).contents ++ pushedBytes ops := by
              rw [contents_push h hguard b]
          _ = outs ++ q'.contents := heq
    | pop =>
      rw [runOps] at hrun
      split at hrun
      · exact absurd hrun (by simp)
      · rename_i hguard
        cases hrec : runOps (q.pop).2 ops with
        | none => rw [hrec] at hrun; exact absurd hrun (by simp)
        | some r =>
          obtain ⟨q2, outs2⟩ := r
          rw [hrec] at hrun
          simp only [Option.some_inj, Prod.mk.injEq] at hrun
          obtain ⟨rfl, rfl⟩ := hrun
          obtain ⟨hw, heq⟩ := ih (pop_WF h) hrec
          refine ⟨hw, ?_⟩
          calc q.contents ++ pushedBytes (Op.pop :: ops)
              = ((q.pop).1 :: (q.pop).2.contents) ++ pushedBytes ops := by
                rw [← contents_pop h hguard]
                simp [pushedBytes, List.filterMap_cons]
            _ = (q.pop).1 :: ((q.pop).2.contents ++ pushedBytes ops) := by simp
            _ = (q.pop).1 :: (outs2 ++ q2.contents) := by rw [heq]
            _ = ((q.pop).1 :: outs2) ++ q2.contents := by simp

/-- The reference full check agrees with occupancy reaching the usable
capacity, for byte cursors inside the storage. -/
theorem isFull_iff {q : CircularQueue} (hm : q.maxSize ≤ 255)
    (hs : q.startPos < q.maxSize) (he : q.endPos < q.maxSize) :
    q.isFull = true ↔ q.getSize = q.maxSize - 1 := by
  rw [getSize_eq hm hs he]
  simp only [isFull, Bool.or_eq_true, Bool.and_eq_true, beq_iff_eq]
  split_ifs <;> omega

/-- The reference empty check agrees with occupancy zero, for byte
cursors inside the storage. -/
theorem isEmpty_iff {q : CircularQueue} (hm : q.maxSize ≤ 255)
    (hs : q.startPos < q.maxSize) (he : q.endPos < q.maxSize) :
    q.isEmpty = true ↔ q.getSize = 0 := by
  rw [getSize_eq hm hs he]
  simp only [isEmpty, beq_iff_eq]
  split_ifs <;> omega

/-- C1: for every sequence of push and pop operations on a queue built
with parameter `n` (any byte-representable capacity, `n ≤ 254`), with
each busy-wait modelled as the precondition that it completes, the
bytes handed to `push` are the bytes returned by `pop` followed by the
bytes still outstanding; in particular, once the queue is drained the
popped bytes equal the pushed bytes exactly, in order (FIFO). -/
theorem fifo_trace {n : Nat} (ops : List Op) {q' : CircularQueue}
    {outs : List Nat} (hn : n ≤ 254)
    (hrun : runOps (fresh n) ops = some (q', outs)) :
    pushedBytes ops = outs ++ q'.contents ∧
    (q'.isEmpty = true → pushedBytes ops = outs) := by
  obtain ⟨hw, heq⟩ := runOps_spec (fresh_WF hn) hrun
  rw [contents_fresh, List.nil_append] at heq
  exact ⟨heq, fun hemp => by rw [heq, contents_empty hw hemp, List.append_nil]⟩

/-- Witness for C1 at capacity parameter 3 with two pushes and two
pops. -/
theorem fifo_trace_witness :
    pushedBytes [Op.push 7, Op.push 9, Op.pop, Op.pop] =
      [7, 9] ++ (CircularQueue.mk [7, 9, 0, 0] 4 2 2).contents :=
  (@fifo_trace 3 [Op.push 7, Op.push 9, Op.pop, Op.pop]
    ⟨[7, 9, 0, 0], 4, 2, 2⟩ [7, 9] (by decide) (by decide)).1

/-- C2: for every cursor state with both cursors in the storage range
(and the byte field `maxSize` in its type range), `isFull()` holds iff
the occupancy equals the usable capacity `maxSize - 1`, and `isEmpty()`
holds iff the occupancy is zero; this settles the spec's open question
about the `s == e+1` check. -/
theorem isFull_isEmpty_iff_getSize (q : CircularQueue)
    (hm : q.maxSize ≤ 255) (hs : q.startPos < q.maxSize)
    (he : q.endPos < q.maxSize) :
    (q.isFull = true ↔ q.getSize = q.maxSize - 1) ∧
    (q.isEmpty = true ↔ q.getSize = 0) :=
  ⟨isFull_iff hm hs he, isEmpty_iff hm hs he⟩

/-- Witness for C2 at a full cursor state. -/
theorem isFull_isEmpty_iff_getSize_witness :
    (isFull ⟨[0, 0, 0, 0], 4, 0, 3⟩ = true ↔
      getSize ⟨[0, 0, 0, 0], 4, 0, 3⟩ = 4 - 1) ∧
    (isEmpty ⟨[0, 0, 0, 0], 4, 0, 3⟩ = true ↔
      getSize ⟨[0, 0, 0, 0], 4, 0, 3⟩ = 0) :=
  isFull_isEmpty_iff_getSize ⟨[0, 0, 0, 0], 4, 0, 3⟩ (by decide) (by decide)
    (by decide)

/-- C10: the constructor stores `n+1` into the single-byte field
`maxSize`, so it records `(n+1) % 256`: exact for `n ≤ 254`, silently
wrapped for every `n ≥ 255`, with `n = 255` yielding internal size 0. -/
theorem fresh_maxSize_wraps :
    (∀ n : Nat, (fresh n).maxSize = (n + 1) % 256) ∧
    (∀ n : Nat, n ≤ 254 → (fresh n).maxSize = n + 1) ∧
    (∀ n : Nat, 255 ≤ n → (fresh n).maxSize ≠ n + 1) ∧
    (fresh 255).maxSize = 0 := by
  refine ⟨fun n => rfl, fun n hn => ?_, fun n hn => ?_, rfl⟩
  · show (n + 1) % 256 = n + 1
    omega
  · show (n + 1) % 256 ≠ n + 1
    omega

/-- Witness for C10 at parameter 255. -/
theorem fresh_maxSize_wraps_witness : (fresh 255).maxSize ≠ 255 + 1 :=
  fresh_maxSize_wraps.2.2.1 255 (by decide)

/-- State after `k` single-byte pushes from a fresh queue with
parameter `n ≤ 254`: storage size `n+1`, read cursor 0, write cursor
`k`. -/
theorem pushN_state {n : Nat} (hn : n ≤ 254) :
    ∀ {k : Nat}, k ≤ n →
      (pushN (fresh n) k).maxSize = n + 1 ∧
      (pushN (fresh n) k).startPos = 0 ∧
      (pushN (fresh n) k).endPos = k := by
  intro k
  induction k with
  | zero =>
    intro _
    refine ⟨?_, rfl, rfl⟩
    show (n + 1) % 256 = n + 1
    omega
  | succ k ih =>
    intro hk
    obtain ⟨h1, h2, h3⟩ := ih (by omega)
    refine ⟨by simp [pushN, h1], by simp [pushN, h2], ?_⟩
    simp only [pushN, push_endPos]
    rw [h3]
    unfold getIncrementedPos
    rw [h1]
    have hx : (k + 1) % 256 = k + 1 := Nat.mod_eq_of_lt (by omega)
    rw [hx, if_neg (by omega)]

/-- C4 amended: the queue built with parameter `n` (1 ≤ n ≤ 254) holds
up to `n` usable bytes, not `n - 1`: each of the first `n` pushes finds
the queue not full (and its wait condition false), and only after `n`
pushes does `isFull()` hold. -/
theorem usable_capacity_eq_param {n : Nat} (hn1 : 1 ≤ n) (hn : n ≤ 254) :
    (∀ k, k < n → isFull (pushN (fresh n) k) = false ∧
      (pushN (fresh n) k).getIncrementedPos (pushN (fresh n) k).endPos ≠
        (pushN (fresh n) k).startPos) ∧
    isFull (pushN (fresh n) n) = true := by
  constructor
  · intro k hk
    obtain ⟨h1, h2, h3⟩ := pushN_state hn (Nat.le_of_lt hk)
    have hsz : (pushN (fresh n) k).getSize = k := by
      rw [getSize_eq (by rw [h1]; omega) (by rw [h2, h1]; omega)
        (by rw [h3, h1]; omega), h2, h3]
      simp
    constructor
    · rw [Bool.eq_false_iff]
      intro hfull
      have hx := (isFull_iff (by rw [h1]; omega) (by rw [h2, h1]; omega)
        (by rw [h3, h1]; omega)).mp hfull
      rw [hsz, h1] at hx
      omega
    · rw [h3, h2, getIncrementedPos_eq (by rw [h1]; omega) (by rw [h1]; omega),
        h1, Nat.mod_eq_of_lt (by omega)]
      omega
  · obtain ⟨h1, h2, h3⟩ := pushN_state hn Nat.le.refl
    have hsz : (pushN (fresh n) n).getSize = n := by
      rw [getSize_eq (by rw [h1]; omega) (by rw [h2, h1]; omega)
        (by rw [h3, h1]; omega), h2, h3]
      simp
    refine (isFull_iff (by rw [h1]; omega) (by rw [h2, h1]; omega)
      (by rw [h3, h1]; omega)).mpr ?_
    rw [hsz, h1]
    omega

/-- C4 fails as stated: with constructor parameter 2 the queue is not
full after 2−1 = 1 byte — the second push's wait condition is still
false, and only after two pushed bytes does `isFull()` hold. -/
theorem usable_capacity_counterexample :
    isFull (pushN (fresh 2) 1) = false ∧
    (pushN (fresh 2) 1).getIncrementedPos (pushN (fresh 2) 1).endPos ≠
      (pushN (fresh 2) 1).startPos ∧
    isFull (pushN (fresh 2) 2) = true := by decide

/-- Witness for the amended C4 at parameter 3. -/
theorem usable_capacity_eq_param_witness :
    isFull (pushN (fresh 3) 3) = true :=
  (@usable_capacity_eq_param 3 (by decide) (by decide)).2

/-- Helper: `List.getD` of a `List.take`, inside the taken range. -/
theorem getD_take {α : Type} (l : List α) (c k : Nat) (d : α) (hk : k < c)
    (hc : k < l.length) : (l.take c).getD k d = l.getD k d := by
  rw [List.getD_eq_getElem _ _ (by rw [List.length_take]; exact lt_min hk hc),
    List.getD_eq_getElem _ _ hc]
  exact List.getElem_take l

/-- Helper: `List.getD` of a `List.drop`, inside the list. -/
theorem getD_drop {α : Type} (l : List α) (c k : Nat) (d : α)
    (h : c + k < l.length) : (l.drop c).getD k d = l.getD (c + k) d := by
  rw [List.getD_eq_getElem _ _ (by rw [List.length_drop]; omega),
    List.getD_eq_getElem _ _ h]
  exact List.getElem_drop l

/-- Helper: reading a whole list through `getD`. -/
theorem map_getD_range (l : List Nat) :
    (List.range l.length).map (fun k => l.getD k 0) = l := by
  refine List.ext_getElem (by simp) ?_
  intro i h1 h2
  simp only [List.getElem_map, List.getElem_range]
  rw [List.getD_eq_getElem _ _ h2]

theorem memcpyAt_length (d : List Nat) : ∀ (buf : List Nat) (p : Nat),
    (memcpyAt buf p d).length = buf.length := by
  induction d with
  | nil => intro buf p; rfl
  | cons a ds ih => intro buf p; rw [memcpyAt, ih, List.length_set]

/-- Cell `j` after a `memcpy` of `d` at `p`: the copied byte inside the
written, in-range window, the old byte elsewhere. -/
theorem memcpyAt_getD (d : List Nat) : ∀ (buf : List Nat) (p j : Nat),
    (memcpyAt buf p d).getD j 0 =
      if p ≤ j ∧ j < p + d.length ∧ j < buf.length then d.getD (j - p) 0
      else buf.getD j 0 := by
  induction d with
  | nil =>
    intro buf p j
    rw [if_neg (by simp only [List.length_nil]; omega)]
    rfl
  | cons a ds ih =>
    intro buf p j
    rw [memcpyAt, ih, List.length_set]
    by_cases h1 : p + 1 ≤ j ∧ j < p + 1 + ds.length ∧ j < buf.length
    · rw [if_pos h1, if_pos (by simp only [List.length_cons]; omega)]
      obtain ⟨k, hk⟩ : ∃ k, j - p = k + 1 := ⟨j - (p + 1), by omega⟩
      rw [hk, List.getD_cons_succ]
      have hx : j - (p + 1) = k := by omega
      rw [hx]
    · rw [if_neg h1]
      by_cases h2 : j = p ∧ p < buf.length
      · obtain ⟨rfl, hp⟩ := h2
        rw [if_pos (by simp only [List.length_cons]; omega)]
        rw [Nat.sub_self, List.getD_cons_zero, getD_set_self _ _ _ _ hp]
      · rw [if_neg (by simp only [List.length_cons]; omega)]
        rcases eq_or_ne j p with rfl | hne
        · have hge : buf.length ≤ j := by omega
          rw [List.getD_eq_default _ _ (by rw [List.length_set]; exact hge),
            List.getD_eq_default _ _ hge]
        · exact getD_set_ne _ _ _ _ _ (Ne.symm hne)

theorem pushBlock_maxSize (q : CircularQueue) (data : List Nat) :
    (q.pushBlock data).maxSize = q.maxSize := by
  simp only [pushBlock]
  split <;> rfl

theorem pushBlock_startPos (q : CircularQueue) (data : List Nat) :
    (q.pushBlock data).startPos = q.startPos := by
  simp only [pushBlock]
  split <;> rfl

theorem pushBlock_buffer (q : CircularQueue) (data : List Nat) :
    (q.pushBlock data).buffer =
      if min data.length (q.maxSize - q.endPos) ≠ data.length then
        memcpyAt (memcpyAt q.buffer q.endPos
          (data.take (min data.length (q.maxSize - q.endPos)))) 0
          (data.drop (min data.length (q.maxSize - q.endPos)))
      else memcpyAt q.buffer q.endPos
        (data.take (min data.length (q.maxSize - q.endPos))) := by
  simp only [pushBlock]
  split <;> rfl

theorem pushBlock_endPos_def (q : CircularQueue) (data : List Nat) :
    (q.pushBlock data).endPos =
      if min data.length (q.maxSize - q.endPos) ≠ data.length then
        data.length - min data.length (q.maxSize - q.endPos)
      else if data.length + q.endPos = q.maxSize then 0
      else (q.endPos + data.length) % 256 := by
  simp only [pushBlock]
  split <;> rfl

/-- Under the wait precondition, `pushBlock` advances the write cursor
by the block length, modulo the storage size. -/
theorem pushBlock_endPos {q : CircularQueue} (hm : q.maxSize ≤ 255)
    (hs : q.startPos < q.maxSize) (he : q.endPos < q.maxSize)
    {data : List Nat} (hpre : q.getSize + data.length < q.maxSize) :
    (q.pushBlock data).endPos = (q.endPos + data.length) % q.maxSize := by
  have hL : data.length < q.maxSize := by omega
  rw [pushBlock_endPos_def]
  split_ifs with hc hc2
  · rw [Nat.mod_eq_sub_mod (by omega), Nat.mod_eq_of_lt (by omega)]
    omega
  · rw [show q.endPos + data.length = q.maxSize from by omega, Nat.mod_self]
  · rw [Nat.mod_eq_of_lt (show q.endPos + data.length < 256 from by omega),
      Nat.mod_eq_of_lt (show q.endPos + data.length < q.maxSize from by omega)]

theorem pushBlock_WF {q : CircularQueue} (h : q.WF) {data : List Nat}
    (hpre : q.getSize + data.length < q.maxSize) : (q.pushBlock data).WF := by
  obtain ⟨h1, h2, h3, h4⟩ := h
  refine ⟨?_, ?_, ?_, ?_⟩
  · rw [pushBlock_maxSize]; exact h1
  · rw [pushBlock_startPos, pushBlock_maxSize]; exact h2
  · rw [pushBlock_endPos h1 h2 h3 hpre, pushBlock_maxSize]
    exact Nat.mod_lt _ (by omega)
  · rw [pushBlock_maxSize, pushBlock_buffer]
    split_ifs <;> rw [memcpyAt_length] <;> [rw [memcpyAt_length]; skip] <;>
      rw [h4]

/-- Under the wait precondition, `pushBlock` grows the occupancy by the
block length. -/
theorem getSize_pushBlock {q : CircularQueue} (h : q.WF) {data : List Nat}
    (hpre : q.getSize + data.length < q.maxSize) :
    (q.pushBlock data).getSize = q.getSize + data.length := by
  have hw := pushBlock_WF h hpre
  obtain ⟨h1, h2, h3, h4⟩ := h
  have hL : data.length < q.maxSize := by omega
  have hpre2 := hpre
  rw [getSize_eq h1 h2 h3] at hpre2
  rw [getSize_eq hw.1 hw.2.1 hw.2.2.1, pushBlock_startPos, pushBlock_maxSize,
    pushBlock_endPos h1 h2 h3 hpre, getSize_eq h1 h2 h3]
  rcases Nat.lt_or_ge (q.endPos + data.length) q.maxSize with hlt | hge
  · rw [Nat.mod_eq_of_lt hlt]
    split_ifs at hpre2 ⊢ <;> omega
  · rw [Nat.mod_eq_sub_mod hge, Nat.mod_eq_of_lt (by omega)]
    split_ifs at hpre2 ⊢ <;> omega

/-- A slot read by `contents` is never a slot written by a `pushBlock`
that satisfies its wait precondition. -/
theorem read_ne_write {q : CircularQueue} (h : q.WF) {L : Nat}
    (hpre : q.getSize + L < q.maxSize) {i k : Nat} (hi : i < q.getSize)
    (hk : k < L) :
    (q.startPos + i) % q.maxSize ≠ (q.endPos + k) % q.maxSize := by
  intro hcon
  have hse := startPos_add_getSize h
  have hsz := getSize_lt h
  rw [← hse, Nat.mod_add_mod] at hcon
  have hx : q.startPos + q.getSize + k = q.startPos + (q.getSize + k) := by
    omega
  rw [hx] at hcon
  have hik : i = q.getSize + k :=
    @add_mod_cancel_lt q.maxSize q.startPos i (q.getSize + k) (by omega)
      (by omega) hcon
  omega

/-- Cells outside the written window are untouched by `pushBlock`. -/
theorem pushBlock_getD_old {q : CircularQueue} (h : q.WF) {data : List Nat}
    (hpre : q.getSize + data.length < q.maxSize) {j : Nat}
    (hj : j < q.maxSize)
    (hout : ∀ k, k < data.length → j ≠ (q.endPos + k) % q.maxSize) :
    (q.pushBlock data).buffer.getD j 0 = q.buffer.getD j 0 := by
  obtain ⟨h1, h2, h3, h4⟩ := h
  have hL : data.length < q.maxSize := by omega
  rw [pushBlock_buffer]
  split_ifs with hc
  · have hmin : min data.length (q.maxSize - q.endPos) =
        q.maxSize - q.endPos := by omega
    rw [hmin, memcpyAt_getD, if_neg ?hcond1, memcpyAt_getD, if_neg ?hcond2]
    case hcond1 =>
      intro hcon
      obtain ⟨-, hc2, -⟩ := hcon
      rw [List.length_drop] at hc2
      apply hout ((q.maxSize - q.endPos) + j) (by omega)
      rw [show q.endPos + (q.maxSize - q.endPos + j) = q.maxSize + j from
        by omega, Nat.add_mod_left, Nat.mod_eq_of_lt hj]
    case hcond2 =>
      intro hcon
      obtain ⟨hc1, hc2, -⟩ := hcon
      rw [List.length_take] at hc2
      apply hout (j - q.endPos) (by omega)
      rw [show q.endPos + (j - q.endPos) = j from by omega,
        Nat.mod_eq_of_lt hj]
  · have hmin : min data.length (q.maxSize - q.endPos) = data.length := by
      omega
    rw [hmin, List.take_length, memcpyAt_getD, if_neg ?hcond3]
    case hcond3 =>
      intro hcon
      obtain ⟨hc1, hc2, -⟩ := hcon
      apply hout (j - q.endPos) (by omega)
      rw [show q.endPos + (j - q.endPos) = j from by omega,
        Nat.mod_eq_of_lt hj]

/-- Cell `k` of the written window holds byte `k` of the block after a
`pushBlock` that satisfies its wait precondition. -/
theorem pushBlock_getD_new {q : CircularQueue} (h : q.WF) {data : List Nat}
    (hpre : q.getSize + data.length < q.maxSize) {k : Nat}
    (hk : k < data.length) :
    (q.pushBlock data).buffer.getD ((q.endPos + k) % q.maxSize) 0 =
      data.getD k 0 := by
  obtain ⟨h1, h2, h3, h4⟩ := h
  have hL : data.length < q.maxSize := by omega
  rw [pushBlock_buffer]
  split_ifs with hc
  · have hme : q.maxSize - q.endPos < data.length := by omega
    have hmin : min data.length (q.maxSize - q.endPos) =
        q.maxSize - q.endPos := by omega
    rw [hmin]
    rcases Nat.lt_or_ge k (q.maxSize - q.endPos) with hklt | hkge
    · have hj : (q.endPos + k) % q.maxSize = q.endPos + k :=
        Nat.mod_eq_of_lt (by omega)
      rw [hj, memcpyAt_getD, if_neg (by
        rw [List.length_drop]
        omega), memcpyAt_getD, if_pos (by
        refine ⟨by omega, ?_, by rw [h4]; omega⟩
        rw [List.length_take]
        omega)]
      rw [Nat.add_sub_cancel_left]
      exact getD_take data _ k 0 hklt (by omega)
    · have hj : (q.endPos + k) % q.maxSize =
          k - (q.maxSize - q.endPos) := by
        rw [Nat.mod_eq_sub_mod (by omega), Nat.mod_eq_of_lt (by omega)]
        omega
      rw [hj, memcpyAt_getD, if_pos (by
        refine ⟨by omega, ?_, ?_⟩
        · rw [List.length_drop]; omega
        · rw [memcpyAt_length, h4]; omega)]
      rw [Nat.sub_zero, getD_drop data _ _ 0 (by omega),
        show q.maxSize - q.endPos + (k - (q.maxSize - q.endPos)) = k from
          by omega]
  · have hmin : min data.length (q.maxSize - q.endPos) = data.length := by
      omega
    have hle : data.length ≤ q.maxSize - q.endPos := by omega
    have hj : (q.endPos + k) % q.maxSize = q.endPos + k :=
      Nat.mod_eq_of_lt (by omega)
    rw [hmin, List.take_length, hj, memcpyAt_getD, if_pos (by
      refine ⟨by omega, by omega, by rw [h4]; omega⟩)]
    rw [Nat.add_sub_cancel_left]

/-- Under the wait precondition, `pushBlock` appends the block to the
abstract contents, including across the wraparound split. -/
theorem contents_pushBlock {q : CircularQueue} (h : q.WF) {data : List Nat}
    (hpre : q.getSize + data.length < q.maxSize) :
    (q.pushBlock data).contents = q.contents ++ data := by
  have hm : 0 < q.maxSize := Nat.lt_of_le_of_lt (Nat.zero_le _) h.2.1
  have hse := startPos_add_getSize h
  unfold contents
  rw [getSize_pushBlock h hpre, pushBlock_startPos, pushBlock_maxSize,
    List.range_add, List.map_append]
  congr 1
  · refine List.map_congr_left ?_
    intro i hi
    rw [List.mem_range] at hi
    refine pushBlock_getD_old h hpre (Nat.mod_lt _ hm) ?_
    intro k hk
    exact read_ne_write h hpre hi hk
  · rw [List.map_map]
    have hstep : ∀ k ∈ List.range data.length,
        ((fun i => (q.pushBlock data).buffer.getD
          ((q.startPos + i) % q.maxSize) 0) ∘
          (fun x => q.getSize + x)) k = data.getD k 0 := by
      intro k hk
      rw [List.mem_range] at hk
      simp only [Function.comp_apply]
      rw [show q.startPos + (q.getSize + k) =
        (q.startPos + q.getSize) + k from by omega, ← Nat.mod_add_mod, hse]
      exact pushBlock_getD_new h hpre hk
    rw [List.map_congr_left hstep]
    exact map_getD_range data

/-- Popping `k` bytes returns the first `k` outstanding bytes. -/
theorem popN_spec {k : Nat} : ∀ {q : CircularQueue}, q.WF →
    k ≤ q.getSize →
    (popN q k).1 = q.contents.take k ∧ (popN q k).2.WF := by
  induction k with
  | zero =>
    intro q h _
    exact ⟨by simp [popN], h⟩
  | succ k ih =>
    intro q h hk
    have h1 := h.1
    have h2 := h.2.1
    have h3 := h.2.2.1
    have hne : q.startPos ≠ q.endPos := by
      intro hcon
      rw [getSize_eq h1 h2 h3] at hk
      split_ifs at hk <;> omega
    obtain ⟨ih1, ih2⟩ := ih (pop_WF h) (by rw [getSize_pop h hne]; omega)
    refine ⟨?_, ih2⟩
    show (q.pop).1 :: (popN (q.pop).2 k).1 = q.contents.take (k + 1)
    rw [contents_pop h hne, List.take_succ_cons, ih1]

/-- C3 fails as stated: in the reachable state after push 1, push 2,
pop on a queue of usable capacity 3, occupancy 1 plus block length 2 is
within capacity, yet pushing the block [3, 4] and popping 2 bytes
returns [2, 3], not the block. -/
theorem pushBlock_pop_claim_counterexample :
    runOps (fresh 3) [Op.push 1, Op.push 2, Op.pop] =
      some (⟨[1, 2, 0, 0], 4, 1, 2⟩, [1]) ∧
    getSize ⟨[1, 2, 0, 0], 4, 1, 2⟩ + 2 <
      (CircularQueue.mk [1, 2, 0, 0] 4 1 2).maxSize ∧
    (popN (pushBlock ⟨[1, 2, 0, 0], 4, 1, 2⟩ [3, 4]) 2).1 = [2, 3] ∧
    (popN (pushBlock ⟨[1, 2, 0, 0], 4, 1, 2⟩ [3, 4]) 2).1 ≠ [3, 4] := by
  decide

/-- C3 amended: under the wait precondition (occupancy plus block
length at most the usable capacity), `pushBlock` appends the block to
the outstanding bytes — popping the full occupancy returns the prior
contents followed by the block (so the block itself is returned once
the prior occupancy has been popped first), including when the write
wraps and the copy is split; the write cursor ends advanced by the
block length modulo the storage size. -/
theorem pushBlock_appends {q : CircularQueue} {data : List Nat} (h : q.WF)
    (hpre : q.getSize + data.length < q.maxSize) :
    (q.pushBlock data).contents = q.contents ++ data ∧
    (q.pushBlock data).endPos = (q.endPos + data.length) % q.maxSize ∧
    (popN (q.pushBlock data) (q.getSize + data.length)).1 =
      q.contents ++ data := by
  refine ⟨contents_pushBlock h hpre,
    pushBlock_endPos h.1 h.2.1 h.2.2.1 hpre, ?_⟩
  have hw := pushBlock_WF h hpre
  obtain ⟨p1, p2⟩ := popN_spec hw (Nat.le_of_eq (getSize_pushBlock h hpre).symm)
  rw [p1, contents_pushBlock h hpre]
  have hlen : (q.contents ++ data).length = q.getSize + data.length := by
    simp
  rw [← hlen, List.take_length]

/-- Witness for the amended C3 at a wrapping pushBlock. -/
theorem pushBlock_appends_witness :
    (pushBlock ⟨[9, 0, 0, 7], 4, 3, 3⟩ [5, 6]).contents =
      contents ⟨[9, 0, 0, 7], 4, 3, 3⟩ ++ [5, 6] :=
  (@pushBlock_appends ⟨[9, 0, 0, 7], 4, 3, 3⟩ [5, 6]
    (by decide) (by decide)).1

/-- C5: after construction both cursors are 0; `getIncrementedPos` maps
cursor values inside the storage back inside the storage; `push`, `pop`,
`pushBlock` (under its wait precondition) and `clear` preserve the
cursor invariant (stated as preservation of well-formedness, whose
cursor components are exactly startPos, endPos ∈ [0, maxSize)); and the
wrap-case cursor update `dataLength - copyLength` of `pushBlock` stays
below `maxSize` under the wait precondition. -/
theorem cursor_invariants :
    (∀ n : Nat, (fresh n).startPos = 0 ∧ (fresh n).endPos = 0) ∧
    (∀ (q : CircularQueue) (pos : Nat), q.WF → pos < q.maxSize →
      q.getIncrementedPos pos < q.maxSize) ∧
    (∀ (q : CircularQueue) (b : Nat), q.WF → (q.push b).WF) ∧
    (∀ q : CircularQueue, q.WF → (q.pop).2.WF) ∧
    (∀ (q : CircularQueue) (data : List Nat), q.WF →
      q.getSize + data.length < q.maxSize → (q.pushBlock data).WF) ∧
    (∀ q : CircularQueue, q.WF → q.clear.WF) ∧
    (∀ (q : CircularQueue) (data : List Nat), q.WF →
      q.getSize + data.length < q.maxSize →
      q.maxSize - q.endPos < data.length →
      data.length - (q.maxSize - q.endPos) < q.maxSize) :=
  ⟨fun _ => ⟨rfl, rfl⟩, fun _ pos h hp => getIncrementedPos_lt h.1 hp,
    fun _ b h => push_WF h b, fun _ h => pop_WF h,
    fun _ _ h hpre => pushBlock_WF h hpre, fun _ h => clear_WF h,
    fun _ _ _ hpre _ => by omega⟩

/-- Witness for C5: pushing on a fresh queue of parameter 3 preserves
well-formedness. -/
theorem cursor_invariants_witness : ((fresh 3).push 5).WF :=
  cursor_invariants.2.2.1 (fresh 3) 5 (by decide)

end CircularQueue

namespace PathStack

@[simp] theorem create_pos : create.pos = 0 := rfl

theorem push_lt {st : PathStack} (h : st.pos < MAX_PATHSTACK_SIZE)
    (a b : Nat) :
    st.push a b = (⟨st.stack.set st.pos (a, b), st.pos + 1⟩, true) := by
  rw [push, if_pos h]

theorem push_ge {st : PathStack} (h : ¬ st.pos < MAX_PATHSTACK_SIZE)
    (a b : Nat) : st.push a b = (st, false) := by
  rw [push, if_neg h]

/-- While the depth budget lasts, every push succeeds and the depth
advances one per push. -/
theorem pushAll_ok {segs : List (Nat × Nat)} :
    ∀ {st : PathStack}, st.pos + segs.length ≤ MAX_PATHSTACK_SIZE →
      (pushAll st segs).2 = List.replicate segs.length true ∧
      (pushAll st segs).1.pos = st.pos + segs.length := by
  induction segs with
  | nil =>
    intro st _
    exact ⟨rfl, rfl⟩
  | cons seg rest ih =>
    intro st h
    obtain ⟨a, b⟩ := seg
    rw [List.length_cons] at h
    have hlt : st.pos < MAX_PATHSTACK_SIZE := by omega
    obtain ⟨ih1, ih2⟩ := @ih (st.push a b).1
      (by rw [push_lt hlt]; show st.pos + 1 + rest.length ≤ _; omega)
    constructor
    · show (st.push a b).2 :: (pushAll (st.push a b).1 rest).2 =
        List.replicate (rest.length + 1) true
      rw [ih1, push_lt hlt, List.replicate_succ]
    · show (pushAll (st.push a b).1 rest).1.pos = st.pos + (rest.length + 1)
      rw [ih2, push_lt hlt]
      show st.pos + 1 + rest.length = st.pos + (rest.length + 1)
      omega

/-- C6: from the empty stack, the first 8 pushes all succeed, the depth
after the first k of them being exactly k; the 9th push returns false
and leaves the whole state — depth and every entry — unchanged. -/
theorem push_capacity (segs : List (Nat × Nat)) (a b : Nat)
    (hlen : segs.length = MAX_PATHSTACK_SIZE) :
    (pushAll create segs).2 = List.replicate MAX_PATHSTACK_SIZE true ∧
    (∀ k, k ≤ MAX_PATHSTACK_SIZE →
      (pushAll create (segs.take k)).1.pos = k) ∧
    (pushAll create segs).1.push a b = ((pushAll create segs).1, false) := by
  have h8 := @pushAll_ok segs create (by rw [hlen, create_pos]; omega)
  refine ⟨by rw [h8.1, hlen], fun k hk => ?_, ?_⟩
  · have htk := @pushAll_ok (segs.take k) create
      (by rw [List.length_take, hlen, create_pos]; omega)
    rw [htk.2, List.length_take, hlen, create_pos]
    omega
  · have hpos : (pushAll create segs).1.pos = MAX_PATHSTACK_SIZE := by
      rw [h8.2, hlen, create_pos]
      omega
    exact push_ge (by rw [hpos]; omega) a b

/-- Witness for C6 with eight identical segments. -/
theorem push_capacity_witness :
    (pushAll create (List.replicate 8 ((0 : Nat), (0 : Nat)))).2 =
      List.replicate MAX_PATHSTACK_SIZE true :=
  (push_capacity (List.replicate 8 (0, 0)) 0 0 (by decide)).1

/-- Helper: a fold of appends is the flattening of the mapped list. -/
theorem foldl_append_eq (g : Nat → List Char) :
    ∀ (l : List Nat) (init : List Char),
      l.foldl (fun acc i => acc ++ g i) init = init ++ (l.map g).flatten := by
  intro l
  induction l with
  | nil => intro init; simp
  | cons x xs ih => intro init; simp [ih]

/-- The resolution loop, written as the concatenation of the per-entry
substrings in push order. -/
theorem getAbsolutePath_eq (st : PathStack) (path : List Char) :
    st.getAbsolutePath path =
      ((List.range st.pos).map fun i =>
        substring path (st.stack.getD i (0, 0)).1
          (st.stack.getD i (0, 0)).2).flatten := by
  rw [getAbsolutePath, foldl_append_eq, List.nil_append]

/-- C7: `getAbsolutePath` returns the concatenation, in push order
(entry 0 first), of the substrings `source[start, end)` of the first
`pos` recorded entries; the embedding is a pure function, so depth and
entries are untouched by construction.  Includes the spec's example:
source "home/user/docs" with segments (0,4) and (5,9) resolves to
"homeuser". -/
theorem getAbsolutePath_concat :
    (∀ (st : PathStack) (path : List Char),
      st.getAbsolutePath path =
        ((List.range st.pos).map fun i =>
          substring path (st.stack.getD i (0, 0)).1
            (st.stack.getD i (0, 0)).2).flatten) ∧
    ((create.push 0 4).1.push 5 9).1.getAbsolutePath
      "home/user/docs".toList = "homeuser".toList :=
  ⟨getAbsolutePath_eq, by decide⟩

/-- C8 fails as stated at depth capacity − 1 (= 7): there `push(a)`
fills the last slot, `push(b)` fails, and `dropTop` therefore removes
a — the resolved path contains segment c only, not a then c. -/
theorem push_drop_push_counterexample :
    (7 : Nat) ≤ MAX_PATHSTACK_SIZE - 1 ∧
    ((((((⟨List.replicate 8 (0, 0), 7⟩ : PathStack).push 0
        1).1.push 1 2).1.dropTop).push 2 3).1.getAbsolutePath
        ['a', 'b', 'c'] = ['c']) ∧
    ((((((⟨List.replicate 8 (0, 0), 7⟩ : PathStack).push 0
        1).1.push 1 2).1.dropTop).push 2 3).1.getAbsolutePath
        ['a', 'b', 'c'] ≠
      (⟨List.replicate 8 (0, 0), 7⟩ : PathStack).getAbsolutePath
          ['a', 'b', 'c'] ++
        substring ['a', 'b', 'c'] 0 1 ++ substring ['a', 'b', 'c'] 2 3) := by
  decide

/-- C8 amended (depth at most capacity − 2, so that both pushes
actually succeed): push a, push b, dropTop, push c appends exactly
segments a and c, in that order, to the resolved path — segment b
contributes nothing, its slot being overwritten by c. -/
theorem push_drop_push_resolve (st : PathStack) (a1 a2 b1 b2 c1 c2 : Nat)
    (path : List Char) (hlen : st.stack.length = MAX_PATHSTACK_SIZE)
    (hd : st.pos + 2 ≤ MAX_PATHSTACK_SIZE) :
    ((((st.push a1 a2).1.push b1 b2).1.dropTop).push c1 c2).1.getAbsolutePath
        path =
      st.getAbsolutePath path ++ substring path a1 a2 ++
        substring path c1 c2 ∧
    (st.push a1 a2).2 = true ∧
    ((st.push a1 a2).1.push b1 b2).2 = true ∧
    ((((st.push a1 a2).1.push b1 b2).1.dropTop).push c1 c2).2 = true := by
  have h1 : st.pos < MAX_PATHSTACK_SIZE := by omega
  have e1 : (st.push a1 a2).1 =
      ⟨st.stack.set st.pos (a1, a2), st.pos + 1⟩ := by
    rw [push_lt h1]
  have e2 : ((st.push a1 a2).1.push b1 b2).1 =
      ⟨(st.stack.set st.pos (a1, a2)).set (st.pos + 1) (b1, b2),
        st.pos + 2⟩ := by
    rw [e1, push_lt (show (⟨st.stack.set st.pos (a1, a2), st.pos + 1⟩ :
      PathStack).pos < MAX_PATHSTACK_SIZE from by show st.pos + 1 < _; omega)]
  have e3 : (((st.push a1 a2).1.push b1 b2).1.dropTop) =
      ⟨(st.stack.set st.pos (a1, a2)).set (st.pos + 1) (b1, b2),
        st.pos + 1⟩ := by
    rw [e2]
    rfl
  have e4 : ((((st.push a1 a2).1.push b1 b2).1.dropTop).push c1 c2).1 =
      ⟨(st.stack.set st.pos (a1, a2)).set (st.pos + 1) (c1, c2),
        st.pos + 2⟩ := by
    rw [e3, push_lt (show (⟨(st.stack.set st.pos (a1, a2)).set (st.pos + 1)
        (b1, b2), st.pos + 1⟩ : PathStack).pos < MAX_PATHSTACK_SIZE from
      by show st.pos + 1 < _; omega)]
    show (⟨((st.stack.set st.pos (a1, a2)).set (st.pos + 1) (b1, b2)).set
      (st.pos + 1) (c1, c2), st.pos + 2⟩ : PathStack) = _
    rw [List.set_set]
  refine ⟨?_, by rw [push_lt h1], ?_, ?_⟩
  · rw [e4, getAbsolutePath_eq, getAbsolutePath_eq]
    show ((List.range (st.pos + 1 + 1)).map _).flatten = _
    rw [List.range_succ, List.map_append, List.flatten_append,
      List.range_succ, List.map_append, List.flatten_append]
    simp only [List.map_cons, List.map_nil, List.flatten_cons,
      List.flatten_nil, List.append_nil]
    have g1 : ((st.stack.set st.pos (a1, a2)).set (st.pos + 1)
        (c1, c2)).getD st.pos ((0 : Nat), (0 : Nat)) = (a1, a2) := by
      rw [CircularQueue.getD_set_ne _ _ _ _ _ (by omega),
        CircularQueue.getD_set_self _ _ _ _ (by rw [hlen]; omega)]
    have g2 : ((st.stack.set st.pos (a1, a2)).set (st.pos + 1)
        (c1, c2)).getD (st.pos + 1) ((0 : Nat), (0 : Nat)) = (c1, c2) := by
      rw [CircularQueue.getD_set_self _ _ _ _ (by rw [List.length_set, hlen]; omega)]
    have hmap : (List.range st.pos).map (fun i =>
        substring path (((st.stack.set st.pos (a1, a2)).set (st.pos + 1)
          (c1, c2)).getD i (0, 0)).1
          (((st.stack.set st.pos (a1, a2)).set (st.pos + 1)
            (c1, c2)).getD i (0, 0)).2) =
        (List.range st.pos).map (fun i =>
          substring path (st.stack.getD i (0, 0)).1
            (st.stack.getD i (0, 0)).2) := by
      refine List.map_congr_left ?_
      intro i hi
      rw [List.mem_range] at hi
      rw [CircularQueue.getD_set_ne _ _ _ _ _ (by omega), CircularQueue.getD_set_ne _ _ _ _ _ (by omega)]
    rw [hmap, g1, g2, List.append_assoc]
  · rw [e1, push_lt (show (⟨st.stack.set st.pos (a1, a2), st.pos + 1⟩ :
      PathStack).pos < MAX_PATHSTACK_SIZE from by show st.pos + 1 < _; omega)]
  · rw [e3, push_lt (show (⟨(st.stack.set st.pos (a1, a2)).set (st.pos + 1)
        (b1, b2), st.pos + 1⟩ : PathStack).pos < MAX_PATHSTACK_SIZE from
      by show st.pos + 1 < _; omega)]

/-- Witness for the amended C8 on the empty stack. -/
theorem push_drop_push_resolve_witness :
    ((((create.push 0 1).1.push 1 2).1.dropTop).push 2 3).1.getAbsolutePath
        ['x', 'y', 'z'] =
      create.getAbsolutePath ['x', 'y', 'z'] ++
        substring ['x', 'y', 'z'] 0 1 ++ substring ['x', 'y', 'z'] 2 3 :=
  (push_drop_push_resolve create 0 1 1 2 2 3 ['x', 'y', 'z'] (by decide)
    (by decide)).1

/-- C9: `dropTop` sends the depth to max(depth − 1, 0) — a plain
decrement when the stack is non-empty, a no-op with no failure signal
on the empty stack — and never changes the stored entries. -/
theorem dropTop_depth (st : PathStack) :
    (st.dropTop).pos = max (st.pos - 1) 0 ∧ (st.dropTop).stack = st.stack := by
  unfold dropTop
  split_ifs with h
  · refine ⟨?_, rfl⟩
    show st.pos - 1 = max (st.pos - 1) 0
    omega
  · refine ⟨?_, rfl⟩
    show st.pos = max (st.pos - 1) 0
    omega

end PathStack

end NanoSD
